import Mathlib

/-!
Verification of the call-graph, import-resolution, pseudo-variable parsing and
analyzer-dispatch components of the kamailio-language-server repository.

The TypeScript sources are shallowly embedded:
* a JS `Set<string>` is a duplicate-free `List String` built with `setAdd`
  (idempotent insertion at the end, matching JS insertion order);
* a JS `Map<K, V>` is an association list `List (K × V)` with unique keys;
  `mapGet` reads the first (hence unique) entry, `mapSet` replaces it in place
  or appends, `mapDelete` removes it;
* mutation of a node stored in the map is modelled with `updateNode`, which
  rewrites the entry in place when the key is present and is a no-op otherwise
  (this is exactly the `const n = map.get(k); if (n) ...mutate n...` pattern);
* exceptions are modelled with `Except`.
-/

namespace KamailioLS

/-- A point in a tree-sitter parse tree (`Point` from web-tree-sitter). -/
structure Point where
  row : Nat
  column : Nat
deriving DecidableEq, Repr

/-- `TreeSitterRange` from `core/types.ts`. -/
structure TreeSitterRange where
  startPosition : Point
  endPosition : Point
  startIndex : Nat
  endIndex : Nat
deriving DecidableEq, Repr

/-- `FunctionDef` from `functionExtractor.ts`. -/
structure FunctionDef where
  name : String
  uri : String
  range : TreeSitterRange
  nameRange : TreeSitterRange
  parameters : List String
deriving DecidableEq, Repr

/-- `FunctionNode` from `callGraph.ts`; the four JS `Set<string>` fields are
insertion-ordered duplicate-free lists.  The source field `def` is a reserved
word in Lean and is rendered `def_`. -/
structure FunctionNode where
  def_ : FunctionDef
  callees : List String
  callers : List String
  directPvReads : List String
  directPvWrites : List String
deriving DecidableEq, Repr

/-- JS `Set.add`: append the element unless already present. -/
def setAdd (s : List String) (x : String) : List String :=
  if x ∈ s then s else s ++ [x]

/-- JS `Set.delete`: remove the element (sets hold no duplicates, so removing
every occurrence coincides with removing the unique one). -/
def setDelete : List String → String → List String
  | [], _ => []
  | y :: rest, x => if y = x then setDelete rest x else y :: setDelete rest x

/-- JS `Map.get` on an association list with unique keys: first entry wins. -/
def mapGet {β : Type} : List (String × β) → String → Option β
  | [], _ => none
  | p :: rest, k => if p.1 = k then some p.2 else mapGet rest k

/-- JS `Map.set`: replace the entry in place when the key is present,
otherwise append a fresh entry. -/
def mapSet {β : Type} : List (String × β) → String → β → List (String × β)
  | [], k, v => [(k, v)]
  | p :: rest, k, v => if p.1 = k then (k, v) :: rest else p :: mapSet rest k v

/-- JS `Map.delete`: drop the (unique) entry carrying the key. -/
def mapDelete {β : Type} : List (String × β) → String → List (String × β)
  | [], _ => []
  | p :: rest, k => if p.1 = k then rest else p :: mapDelete rest k

/-- The `const n = this.functions.get(k); if (n) ...mutate n...` pattern:
rewrite the entry at `k` in place when present, otherwise do nothing. -/
def updateNode : List (String × FunctionNode) → String → (FunctionNode → FunctionNode) →
    List (String × FunctionNode)
  | [], _, _ => []
  | p :: rest, k, f => if p.1 = k then (p.1, f p.2) :: rest else p :: updateNode rest k f

/-- The `CallGraph` class state: the `functions` map and the `byName` index. -/
structure CallGraph where
  functions : List (String × FunctionNode)
  byName : List (String × List String)
deriving DecidableEq, Repr

/-- A freshly constructed `new CallGraph()`. -/
def emptyGraph : CallGraph := ⟨[], []⟩

/-- `CallGraph.qualifiedKey`. -/
def qualifiedKey (uri name : String) : String := uri ++ "#" ++ name

/-- `CallGraph.addFunction`. -/
def addFunction (g : CallGraph) (d : FunctionDef) : CallGraph :=
  let key := qualifiedKey d.uri d.name
  let functions' := mapSet g.functions key ⟨d, [], [], [], []⟩
  let nameSet := (mapGet g.byName d.name).getD []
  let byName' := mapSet g.byName d.name (setAdd nameSet key)
  ⟨functions', byName'⟩

/-- `CallGraph.addEdge`: each side is updated independently, and only when its
own node is present. -/
def addEdge (g : CallGraph) (callerKey calleeKey : String) : CallGraph :=
  let fns1 := updateNode g.functions callerKey
    (fun n => { n with callees := setAdd n.callees calleeKey })
  let fns2 := updateNode fns1 calleeKey
    (fun n => { n with callers := setAdd n.callers callerKey })
  { g with functions := fns2 }

/-- `CallGraph.setDirectPvAccess`. -/
def setDirectPvAccess (g : CallGraph) (funcKey : String)
    (reads writes : List String) : CallGraph :=
  let fns := updateNode g.functions funcKey
    (fun n => { n with directPvReads := reads, directPvWrites := writes })
  { g with functions := fns }

/-- The body of the `for (const key of keysToRemove)` loop in
`CallGraph.removeFile`, for one removed key.  The source reads
`this.functions.get(key)!`; the key is always present there, and an absent key
is rendered as a no-op.  The source iterates the node's live `callers` /
`callees` sets; the only element ever deleted from them during the loop is
`key` itself, whose node is deleted at the end, so iterating the snapshot read
at the top of the loop yields the same final state. -/
def removeOne (g : CallGraph) (key : String) : CallGraph :=
  match mapGet g.functions key with
  | none => g
  | some node =>
    let fns1 := node.callers.foldl (fun fns callerKey =>
      updateNode fns callerKey (fun n => { n with callees := setDelete n.callees key }))
      g.functions
    let fns2 := node.callees.foldl (fun fns calleeKey =>
      updateNode fns calleeKey (fun n => { n with callers := setDelete n.callers key }))
      fns1
    let byName' :=
      match mapGet g.byName node.def_.name with
      | none => g.byName
      | some nameSet =>
        let ns := setDelete nameSet key
        if ns.length = 0 then mapDelete g.byName node.def_.name
        else mapSet g.byName node.def_.name ns
    { functions := mapDelete fns2 key, byName := byName' }

/-- `CallGraph.removeFile`: collect the keys owned by the uri, then clean each
one up in turn. -/
def removeFile (g : CallGraph) (uri : String) : CallGraph :=
  let keysToRemove := (g.functions.filter (fun p => p.2.def_.uri = uri)).map Prod.fst
  keysToRemove.foldl removeOne g

/-- Upper bound on the number of worklist iterations `getTransitivePvWrites`
can perform: one initial pop plus one pop for every push, and pushes are
bounded by the total size of all callee sets. -/
def transFuel (g : CallGraph) : Nat :=
  1 + (g.functions.map (fun p => p.2.callees.length)).sum

/-- The `while (queue.length > 0)` loop of `CallGraph.getTransitivePvWrites`.
The JS array is used as a stack (`push`/`pop` at the end); we keep the stack
top at the head of the list, which permutes traversal order but not the
resulting set.  Fuel only bounds the iteration count; `transFuel` is proved
sufficient by the correctness theorem. -/
def transGo (g : CallGraph) : Nat → List String → List String → List String → List String
  | 0, _, _, result => result
  | _ + 1, _, [], result => result
  | fuel + 1, visited, current :: queue, result =>
    if current ∈ visited then
      transGo g fuel visited queue result
    else
      match mapGet g.functions current with
      | none => transGo g fuel (setAdd visited current) queue result
      | some node =>
        transGo g fuel (setAdd visited current) (node.callees ++ queue)
          (node.directPvWrites.foldl setAdd result)

/-- `CallGraph.getTransitivePvWrites`. -/
def getTransitivePvWrites (g : CallGraph) (funcKey : String) : List String :=
  transGo g (transFuel g) [] [funcKey] []

/-- `CallGraph.hasTransitiveWrite`: scan every node in the graph. -/
def hasTransitiveWrite (g : CallGraph) (pvKey : String) : Bool :=
  g.functions.any (fun p => decide (pvKey ∈ p.2.directPvWrites))

/-- Callee set of the node registered at a key (empty when unregistered). -/
def calleesOf (g : CallGraph) (k : String) : List String :=
  match mapGet g.functions k with
  | some n => n.callees
  | none => []

/-- Direct PV writes of the node registered at a key (empty when
unregistered). -/
def writesOf (g : CallGraph) (k : String) : List String :=
  match mapGet g.functions k with
  | some n => n.directPvWrites
  | none => []

/-- The callee relation of the graph: `calls g a b` when `b` is listed in the
callee set of the node at `a`. -/
def calls (g : CallGraph) (a b : String) : Prop := b ∈ calleesOf g a

/-- Reachability along the callee relation (reflexive-transitive closure). -/
def reaches (g : CallGraph) (a b : String) : Prop :=
  Relation.ReflTransGen (calls g) a b

/-! ### Basic lemmas about the set and map primitives -/

lemma mem_setAdd {s : List String} {y x : String} :
    x ∈ setAdd s y ↔ x ∈ s ∨ x = y := by
  unfold setAdd
  split
  · next h =>
    constructor
    · exact Or.inl
    · rintro (hx | rfl)
      · exact hx
      · exact h
  · simp [List.mem_append]

lemma nodup_setAdd {s : List String} {y : String} (h : s.Nodup) :
    (setAdd s y).Nodup := by
  unfold setAdd
  split
  · exact h
  · next hy => simp [List.nodup_append, h, hy]

lemma mem_foldl_setAdd :
    ∀ (l s : List String) (x : String), x ∈ l.foldl setAdd s ↔ x ∈ s ∨ x ∈ l := by
  intro l
  induction l with
  | nil => simp
  | cons y rest ih =>
    intro s x
    simp only [List.foldl_cons, ih, mem_setAdd, List.mem_cons]
    tauto

lemma nodup_foldl_setAdd :
    ∀ (l s : List String), s.Nodup → (l.foldl setAdd s).Nodup := by
  intro l
  induction l with
  | nil => exact fun s h => h
  | cons y rest ih => exact fun s h => ih _ (nodup_setAdd h)

lemma mem_setDelete :
    ∀ (s : List String) (y x : String), x ∈ setDelete s y ↔ x ∈ s ∧ x ≠ y := by
  intro s y x
  induction s with
  | nil => simp [setDelete]
  | cons z rest ih =>
    unfold setDelete
    split
    · next hz =>
      subst hz
      rw [ih]
      simp only [List.mem_cons]
      constructor
      · rintro ⟨h1, h2⟩; exact ⟨Or.inr h1, h2⟩
      · rintro ⟨h1 | h1, h2⟩
        · exact absurd h1 h2
        · exact ⟨h1, h2⟩
    · next hz =>
      simp only [List.mem_cons, ih]
      constructor
      · rintro (rfl | ⟨h1, h2⟩)
        · exact ⟨Or.inl rfl, hz⟩
        · exact ⟨Or.inr h1, h2⟩
      · rintro ⟨rfl | h1, h2⟩
        · exact Or.inl rfl
        · exact Or.inr ⟨h1, h2⟩

lemma mapGet_updateNode (m : List (String × FunctionNode)) (k : String)
    (f : FunctionNode → FunctionNode) (k' : String) :
    mapGet (updateNode m k f) k' =
      if k' = k then (mapGet m k).map f else mapGet m k' := by
  induction m with
  | nil => simp [updateNode, mapGet]
  | cons p rest ih =>
    unfold updateNode
    split
    · next hp =>
      subst hp
      by_cases hk : k' = p.1
      · subst hk
        simp [mapGet]
      · simp only [mapGet, hk, if_false]
        rw [if_neg (fun h : p.1 = k' => hk h.symm),
          if_neg (fun h : p.1 = k' => hk h.symm)]
    · next hp =>
      simp only [mapGet, hp, if_false]
      by_cases hk : p.1 = k'
      · subst hk
        rw [if_pos rfl, if_neg hp, if_pos rfl]
      · rw [if_neg hk, if_neg hk, ih]

lemma updateNode_absent {m : List (String × FunctionNode)} {k : String}
    (f : FunctionNode → FunctionNode) (h : mapGet m k = none) :
    updateNode m k f = m := by
  induction m with
  | nil => rfl
  | cons p rest ih =>
    unfold mapGet at h
    unfold updateNode
    split
    · next hp => simp [hp] at h
    · next hp =>
      rw [if_neg hp] at h
      rw [ih h]

lemma mapGet_mapSet_self {β : Type} (m : List (String × β)) (k : String) (v : β) :
    mapGet (mapSet m k v) k = some v := by
  induction m with
  | nil => simp [mapSet, mapGet]
  | cons p rest ih =>
    unfold mapSet
    split
    · simp [mapGet]
    · next hp => simp only [mapGet, hp, if_false, ih]

lemma mapGet_mapSet_ne {β : Type} (m : List (String × β)) (k : String) (v : β)
    (k' : String) (h : k' ≠ k) :
    mapGet (mapSet m k v) k' = mapGet m k' := by
  induction m with
  | nil =>
    simp only [mapSet, mapGet]
    rw [if_neg (fun e : k = k' => h e.symm)]
  | cons p rest ih =>
    unfold mapSet
    split
    · next hp =>
      subst hp
      simp only [mapGet]
      rw [if_neg (fun e : p.1 = k' => h e.symm), if_neg (fun e : p.1 = k' => h e.symm)]
    · next hp =>
      by_cases hpk : p.1 = k'
      · simp [mapGet, hpk]
      · simp [mapGet, hpk, ih]

lemma transGo_nil (g : CallGraph) (fuel : Nat) (v r : List String) :
    transGo g fuel v [] r = r := by
  cases fuel <;> rfl

/-! ### Concrete sample graphs used by witnesses and counterexamples -/

/-- A trivial tree-sitter range for sample `FunctionDef`s. -/
def sampleRange : TreeSitterRange := ⟨⟨0, 0⟩, ⟨0, 0⟩, 0, 0⟩

def defA : FunctionDef := ⟨"a", "file:///a.py", sampleRange, sampleRange, []⟩

def defB : FunctionDef := ⟨"b", "file:///a.py", sampleRange, sampleRange, []⟩

def defBother : FunctionDef := ⟨"b", "file:///b.py", sampleRange, sampleRange, []⟩

def keyA : String := qualifiedKey "file:///a.py" "a"

def keyB : String := qualifiedKey "file:///a.py" "b"

def keyBother : String := qualifiedKey "file:///b.py" "b"

/-- The cycle scenario of the spec: `a → b` and `b → a`, with a direct write
on each node. -/
def gCycle : CallGraph :=
  addEdge (addEdge
    (setDirectPvAccess (setDirectPvAccess
      (addFunction (addFunction emptyGraph defA) defB)
      keyA [] ["var:x"]) keyB [] ["var:y"])
    keyA keyB) keyB keyA

/-- A graph holding only the function `a`, used to probe `addEdge` with an
unregistered callee key. -/
def gEdgeAbsent : CallGraph := addFunction emptyGraph defA

/-- Register `a`, add an edge `a → file:///b.py#b` while that callee is still
unregistered, then register it: the back-edge `callers` entry is missing. -/
def gDangling : CallGraph :=
  addFunction (addEdge (addFunction emptyGraph defA) keyA keyBother) defBother

/-! ### Claims C4, C9, C10, C2 -/

/-- C4: `hasTransitiveWrite(pvKey)` returns true iff some node anywhere in the
graph has `pvKey` in its `directPvWrites` set; the check is workspace-global
and is stated without any reference to the callee relation or to call paths. -/
theorem hasTransitiveWrite_iff_exists_direct_writer (g : CallGraph) (pvKey : String) :
    hasTransitiveWrite g pvKey = true ↔
      ∃ p ∈ g.functions, pvKey ∈ p.2.directPvWrites := by
  simp [hasTransitiveWrite, List.any_eq_true]

/-- C9: `addFunction(def)` installs a node with empty `callees`, `callers`,
`directPvReads` and `directPvWrites` sets at the qualified key — discarding
anything previously recorded there — and leaves the node stored at every other
key untouched. -/
theorem addFunction_overwrites_node_and_frames_rest (g : CallGraph) (d : FunctionDef) :
    mapGet (addFunction g d).functions (qualifiedKey d.uri d.name) =
        some ⟨d, [], [], [], []⟩
    ∧ ∀ k, k ≠ qualifiedKey d.uri d.name →
        mapGet (addFunction g d).functions k = mapGet g.functions k := by
  refine ⟨?_, ?_⟩
  · exact mapGet_mapSet_self _ _ _
  · intro k hk
    exact mapGet_mapSet_ne _ _ _ _ hk

/-- Witness for C9: overwriting the already-registered `a` resets its node and
leaves an unrelated key unchanged. -/
theorem addFunction_overwrites_node_and_frames_rest_witness :
    mapGet (addFunction gCycle defA).functions keyB = mapGet gCycle.functions keyB :=
  (addFunction_overwrites_node_and_frames_rest gCycle defA).2 keyB (by decide)

/-- C10: querying transitive PV writes at a key with no registered node
returns the empty set (the pure model also makes "no error, no mutation"
immediate: `getTransitivePvWrites` only reads the graph). -/
theorem getTransitivePvWrites_unregistered_empty (g : CallGraph) (k : String)
    (h : mapGet g.functions k = none) :
    getTransitivePvWrites g k = [] := by
  have h1 : transFuel g = (g.functions.map (fun p => p.2.callees.length)).sum + 1 := by
    rw [transFuel, Nat.add_comm]
  rw [getTransitivePvWrites, h1]
  show transGo g (_ + 1) [] [k] [] = []
  rw [transGo]
  simp only [List.not_mem_nil, if_false, h]
  exact transGo_nil _ _ _ _

/-- Witness for C10 at a concrete unregistered key. -/
theorem getTransitivePvWrites_unregistered_empty_witness :
    getTransitivePvWrites gCycle "file:///a.py#zzz" = [] :=
  getTransitivePvWrites_unregistered_empty gCycle "file:///a.py#zzz" (by decide)

/-- C2 counterexample: with `a` registered and the callee key unregistered,
`addEdge` is not a no-op — the caller's callee set is still extended.  This
refutes the claim that `addEdge` leaves the state unchanged whenever either
endpoint is absent. -/
theorem addEdge_single_absent_not_noop_cex :
    mapGet gEdgeAbsent.functions "file:///x.py#b" = none
    ∧ calleesOf gEdgeAbsent keyA = []
    ∧ calleesOf (addEdge gEdgeAbsent keyA "file:///x.py#b") keyA = ["file:///x.py#b"]
    ∧ addEdge gEdgeAbsent keyA "file:///x.py#b" ≠ gEdgeAbsent := by
  decide

/-- C2 amended: `addEdge(callerKey, calleeKey)` is a no-op when *both* keys
are unregistered; when only one endpoint is registered, that side's set is
still updated (as the counterexample shows). -/
theorem addEdge_noop_when_both_absent (g : CallGraph) (callerKey calleeKey : String)
    (hcaller : mapGet g.functions callerKey = none)
    (hcallee : mapGet g.functions calleeKey = none) :
    addEdge g callerKey calleeKey = g := by
  simp only [addEdge, updateNode_absent _ hcaller, updateNode_absent _ hcallee]

/-- Witness for the amended C2 at concrete unregistered keys. -/
theorem addEdge_noop_when_both_absent_witness :
    addEdge gEdgeAbsent "file:///x.py#p" "file:///x.py#q" = gEdgeAbsent :=
  addEdge_noop_when_both_absent gEdgeAbsent _ _ (by decide) (by decide)

/-! ### Claim C1: the worklist search computes exactly the reachable writes

The loop of `getTransitivePvWrites` is characterised through an "avoidance"
reachability relation: a path along callee edges whose stepping nodes lie
outside the current `visited` set and whose endpoint is unvisited. -/

/-- One callee step taken from an unvisited node. -/
def callsAvoid (g : CallGraph) (visited : List String) (a b : String) : Prop :=
  a ∉ visited ∧ calls g a b

/-- Reachability along callee edges whose sources avoid `visited` and whose
endpoint is unvisited. -/
def reachesAvoid (g : CallGraph) (visited : List String) (a b : String) : Prop :=
  Relation.ReflTransGen (callsAvoid g visited) a b ∧ b ∉ visited

/-- The writes the loop still owes: a write of some node avoid-reachable from
some queue element. -/
def pending (g : CallGraph) (visited queue : List String) (w : String) : Prop :=
  ∃ k ∈ queue, ∃ m, reachesAvoid g visited k m ∧ w ∈ writesOf g m

/-- Total size of the callee sets of the not-yet-visited registered nodes:
the potential of the worklist loop. -/
def sumCallees : List (String × FunctionNode) → List String → Nat
  | [], _ => 0
  | p :: rest, visited =>
    (if p.1 ∈ visited then 0 else p.2.callees.length) + sumCallees rest visited

lemma sumCallees_anti (m : List (String × FunctionNode)) {v v' : List String}
    (hsub : ∀ x ∈ v, x ∈ v') : sumCallees m v' ≤ sumCallees m v := by
  induction m with
  | nil => exact Nat.le_refl 0
  | cons p rest ih =>
    unfold sumCallees
    have hh : (if p.1 ∈ v' then 0 else p.2.callees.length) ≤
        (if p.1 ∈ v then 0 else p.2.callees.length) := by
      by_cases h : p.1 ∈ v'
      · simp [h]
      · rw [if_neg h, if_neg (fun hv => h (hsub _ hv))]
    exact Nat.add_le_add hh ih

lemma sumCallees_setAdd_absent {m : List (String × FunctionNode)} {current : String}
    (h : mapGet m current = none) (v : List String) :
    sumCallees m (setAdd v current) = sumCallees m v := by
  induction m with
  | nil => rfl
  | cons p rest ih =>
    unfold mapGet at h
    have hp : ¬ p.1 = current := by
      intro e; rw [if_pos e] at h; exact Option.noConfusion h
    rw [if_neg hp] at h
    unfold sumCallees
    have hmem : p.1 ∈ setAdd v current ↔ p.1 ∈ v := by
      rw [mem_setAdd]
      exact ⟨fun hc => hc.elim id (fun e => absurd e hp), Or.inl⟩
    by_cases hv : p.1 ∈ v
    · rw [if_pos hv, if_pos (hmem.mpr hv), ih h]
    · rw [if_neg hv, if_neg (fun hc => hv (hmem.mp hc)), ih h]

lemma sumCallees_setAdd_found {m : List (String × FunctionNode)} {current : String}
    {node : FunctionNode} (h : mapGet m current = some node) {v : List String}
    (hv : current ∉ v) :
    sumCallees m (setAdd v current) + node.callees.length ≤ sumCallees m v := by
  induction m with
  | nil => exact Option.noConfusion h
  | cons p rest ih =>
    unfold mapGet at h
    unfold sumCallees
    by_cases hp : p.1 = current
    · rw [if_pos hp] at h
      have hnode : p.2 = node := Option.some.inj h
      have h1 : p.1 ∈ setAdd v current := by rw [mem_setAdd]; exact Or.inr hp
      rw [if_pos h1, if_neg (hp ▸ hv), hnode]
      have := sumCallees_anti rest (fun x hx => mem_setAdd.mpr (Or.inl hx) :
        ∀ x ∈ v, x ∈ setAdd v current)
      omega
    · rw [if_neg hp] at h
      have hmem : p.1 ∈ setAdd v current ↔ p.1 ∈ v := by
        rw [mem_setAdd]
        exact ⟨fun hc => hc.elim id (fun e => absurd e hp), Or.inl⟩
      have := ih h
      by_cases hpv : p.1 ∈ v
      · rw [if_pos hpv, if_pos (hmem.mpr hpv)]
        omega
      · rw [if_neg hpv, if_neg (fun hc => hpv (hmem.mp hc))]
        omega

lemma sumCallees_nil_visited (m : List (String × FunctionNode)) :
    sumCallees m [] = (m.map (fun p => p.2.callees.length)).sum := by
  induction m with
  | nil => rfl
  | cons p rest ih => simp [sumCallees, ih]

/-! Step equations for `transGo`. -/

lemma transGo_step_visited {g : CallGraph} {fuel : Nat}
    {visited queue result : List String} {current : String} (h : current ∈ visited) :
    transGo g (fuel + 1) visited (current :: queue) result =
      transGo g fuel visited queue result := by
  rw [transGo, if_pos h]

lemma transGo_step_none {g : CallGraph} {fuel : Nat}
    {visited queue result : List String} {current : String} (hv : current ∉ visited)
    (h : mapGet g.functions current = none) :
    transGo g (fuel + 1) visited (current :: queue) result =
      transGo g fuel (setAdd visited current) queue result := by
  rw [transGo, if_neg hv, h]

lemma transGo_step_some {g : CallGraph} {fuel : Nat}
    {visited queue result : List String} {current : String} {node : FunctionNode}
    (hv : current ∉ visited) (h : mapGet g.functions current = some node) :
    transGo g (fuel + 1) visited (current :: queue) result =
      transGo g fuel (setAdd visited current) (node.callees ++ queue)
        (node.directPvWrites.foldl setAdd result) := by
  rw [transGo, if_neg hv, h]

/-! Lemmas about avoidance reachability. -/

lemma not_reachesAvoid_of_visited {g : CallGraph} {visited : List String}
    {current m : String} (hv : current ∈ visited) :
    ¬ reachesAvoid g visited current m := by
  rintro ⟨hr, hm⟩
  rcases hr.cases_head with rfl | ⟨c, ⟨hcv, _⟩, _⟩
  · exact hm hv
  · exact hcv hv

lemma rtg_avoid_anti {g : CallGraph} {v v' : List String} (hsub : ∀ x ∈ v, x ∈ v')
    {k m : String} (h : Relation.ReflTransGen (callsAvoid g v') k m) :
    Relation.ReflTransGen (callsAvoid g v) k m :=
  Relation.ReflTransGen.mono (fun a _ hab => ⟨fun ha => hab.1 (hsub a ha), hab.2⟩) h

lemma reachesAvoid_anti {g : CallGraph} {v v' : List String} (hsub : ∀ x ∈ v, x ∈ v')
    {k m : String} (h : reachesAvoid g v' k m) : reachesAvoid g v k m :=
  ⟨rtg_avoid_anti hsub h.1, fun hm => h.2 (hsub m hm)⟩

lemma rtg_avoid_strengthen_no_calls {g : CallGraph} {v : List String} {current : String}
    (hnone : calleesOf g current = []) {k m : String}
    (h : Relation.ReflTransGen (callsAvoid g v) k m) :
    Relation.ReflTransGen (callsAvoid g (setAdd v current)) k m := by
  induction h with
  | refl => exact Relation.ReflTransGen.refl
  | tail h1 h2 ih =>
    next b c =>
      obtain ⟨hb, hbc⟩ := h2
      have hbcur : b ≠ current := by
        rintro rfl
        rw [calls, hnone] at hbc
        exact List.not_mem_nil _ hbc
      refine ih.tail ⟨?_, hbc⟩
      rw [mem_setAdd]
      rintro (h | h)
      · exact hb h
      · exact hbcur h

/-- Decomposition of an avoidance path at the last visit of `current`: either
the path never steps from `current` (and can avoid it), or its tail after the
last visit starts with a callee edge out of `current`, or it ends at
`current`. -/
lemma rtg_avoid_decomp {g : CallGraph} {v : List String} {current : String}
    {k m : String} (h : Relation.ReflTransGen (callsAvoid g v) k m) :
    Relation.ReflTransGen (callsAvoid g (setAdd v current)) k m
    ∨ (∃ c, calls g current c ∧
        Relation.ReflTransGen (callsAvoid g (setAdd v current)) c m)
    ∨ m = current := by
  induction h with
  | refl =>
    by_cases hk : k = current
    · exact Or.inr (Or.inr hk)
    · exact Or.inl Relation.ReflTransGen.refl
  | tail h1 h2 ih =>
    next b c =>
      obtain ⟨hb, hbc⟩ := h2
      by_cases hc : c = current
      · exact Or.inr (Or.inr hc)
      · by_cases hbcur : b = current
        · subst hbcur
          exact Or.inr (Or.inl ⟨c, hbc, Relation.ReflTransGen.refl⟩)
        · have hbv' : b ∉ setAdd v current := by
            rw [mem_setAdd]
            rintro (h | h)
            · exact hb h
            · exact hbcur h
          rcases ih with h | ⟨c', hc', h⟩ | h
          · exact Or.inl (h.tail ⟨hbv', hbc⟩)
          · exact Or.inr (Or.inl ⟨c', hc', h.tail ⟨hbv', hbc⟩⟩)
          · exact absurd h hbcur

/-! How the owed writes evolve across one loop iteration. -/

lemma pending_cons_visited {g : CallGraph} {visited rest : List String}
    {current w : String} (hv : current ∈ visited) :
    pending g visited (current :: rest) w ↔ pending g visited rest w := by
  unfold pending
  constructor
  · rintro ⟨k, hk, m, hra, hw⟩
    rcases List.mem_cons.mp hk with rfl | hk'
    · exact absurd hra (not_reachesAvoid_of_visited hv)
    · exact ⟨k, hk', m, hra, hw⟩
  · rintro ⟨k, hk, m, hra, hw⟩
    exact ⟨k, List.mem_cons_of_mem _ hk, m, hra, hw⟩

lemma pending_cons_none {g : CallGraph} {visited rest : List String}
    {current w : String} (hv : current ∉ visited)
    (hcur : mapGet g.functions current = none) :
    pending g visited (current :: rest) w ↔
      pending g (setAdd visited current) rest w := by
  have hcal : calleesOf g current = [] := by rw [calleesOf, hcur]
  have hwr : writesOf g current = [] := by rw [writesOf, hcur]
  unfold pending
  constructor
  · rintro ⟨k, hk, m, ⟨hr, hm⟩, hw⟩
    rcases List.mem_cons.mp hk with rfl | hk'
    · exfalso
      rcases hr.cases_head with rfl | ⟨c, ⟨_, hcc⟩, _⟩
      · rw [hwr] at hw
        exact List.not_mem_nil w hw
      · rw [calls, hcal] at hcc
        exact List.not_mem_nil c hcc
    · have hmc : m ≠ current := by
        intro e
        rw [e, hwr] at hw
        exact List.not_mem_nil w hw
      refine ⟨k, hk', m, ⟨rtg_avoid_strengthen_no_calls hcal hr, ?_⟩, hw⟩
      rw [mem_setAdd]
      rintro (h | h)
      · exact hm h
      · exact hmc h
  · rintro ⟨k, hk, m, hra, hw⟩
    exact ⟨k, List.mem_cons_of_mem _ hk, m,
      reachesAvoid_anti (fun x hx => mem_setAdd.mpr (Or.inl hx)) hra, hw⟩

lemma pending_cons_some {g : CallGraph} {visited rest result : List String}
    {current w : String} {node : FunctionNode} (hv : current ∉ visited)
    (hcur : mapGet g.functions current = some node) :
    (w ∈ node.directPvWrites.foldl setAdd result
        ∨ pending g (setAdd visited current) (node.callees ++ rest) w)
    ↔ (w ∈ result ∨ pending g visited (current :: rest) w) := by
  have hcal : calleesOf g current = node.callees := by rw [calleesOf, hcur]
  have hwr : writesOf g current = node.directPvWrites := by rw [writesOf, hcur]
  have hsub : ∀ x ∈ visited, x ∈ setAdd visited current :=
    fun x hx => mem_setAdd.mpr (Or.inl hx)
  unfold pending
  constructor
  · rintro (hwres | ⟨k, hk, m, ⟨hr, hm⟩, hw⟩)
    · rcases (mem_foldl_setAdd _ _ _).mp hwres with h | h
      · exact Or.inl h
      · refine Or.inr ⟨current, List.mem_cons_self _ _, current,
          ⟨Relation.ReflTransGen.refl, hv⟩, ?_⟩
        rw [hwr]
        exact h
    · have hm' : m ∉ visited := fun h => hm (hsub m h)
      rcases List.mem_append.mp hk with hkc | hkr
      · refine Or.inr ⟨current, List.mem_cons_self _ _, m, ⟨?_, hm'⟩, hw⟩
        refine Relation.ReflTransGen.head ⟨hv, ?_⟩ (rtg_avoid_anti hsub hr)
        rw [calls, hcal]
        exact hkc
      · exact Or.inr ⟨k, List.mem_cons_of_mem _ hkr, m,
          ⟨rtg_avoid_anti hsub hr, hm'⟩, hw⟩
  · rintro (hwres | ⟨k, hk, m, ⟨hr, hm⟩, hw⟩)
    · exact Or.inl ((mem_foldl_setAdd _ _ _).mpr (Or.inl hwres))
    · by_cases hmc : m = current
      · subst hmc
        rw [hwr] at hw
        exact Or.inl ((mem_foldl_setAdd _ _ _).mpr (Or.inr hw))
      · have hm' : m ∉ setAdd visited current := by
          rw [mem_setAdd]
          rintro (h | h)
          · exact hm h
          · exact hmc h
        rcases @rtg_avoid_decomp g visited current k m hr with h | ⟨c, hc, h⟩ | h
        · rcases List.mem_cons.mp hk with rfl | hkr
          · exfalso
            rcases h.cases_head with rfl | ⟨c, ⟨hcv', _⟩, _⟩
            · exact hmc rfl
            · exact hcv' (mem_setAdd.mpr (Or.inr rfl))
          · exact Or.inr ⟨k, List.mem_append.mpr (Or.inr hkr), m, ⟨h, hm'⟩, hw⟩
        · refine Or.inr ⟨c, List.mem_append.mpr (Or.inl ?_), m, ⟨h, hm'⟩, hw⟩
          rw [calls, hcal] at hc
          exact hc
        · exact absurd h hmc

/-- Main loop invariant: with enough fuel, the loop returns exactly the
accumulated result together with every owed write. -/
lemma transGo_mem (g : CallGraph) :
    ∀ (fuel : Nat) (visited queue result : List String),
      queue.length + sumCallees g.functions visited ≤ fuel →
      ∀ w, w ∈ transGo g fuel visited queue result ↔
        w ∈ result ∨ pending g visited queue w := by
  intro fuel
  induction fuel with
  | zero =>
    intro visited queue result hb w
    have hq : queue = [] := List.length_eq_zero.mp (by omega)
    subst hq
    show w ∈ result ↔ _
    simp [pending]
  | succ fuel ih =>
    intro visited queue result hb w
    cases queue with
    | nil =>
      rw [transGo_nil]
      simp [pending]
    | cons current rest =>
      have hb' : rest.length + sumCallees g.functions visited ≤ fuel := by
        rw [List.length_cons] at hb
        omega
      by_cases hv : current ∈ visited
      · rw [transGo_step_visited hv, pending_cons_visited hv]
        exact ih visited rest result hb' w
      · cases hcur : mapGet g.functions current with
        | none =>
          rw [transGo_step_none hv hcur, pending_cons_none hv hcur]
          refine ih _ _ _ ?_ w
          rw [sumCallees_setAdd_absent hcur]
          exact hb'
        | some node =>
          have hbound : (node.callees ++ rest).length +
              sumCallees g.functions (setAdd visited current) ≤ fuel := by
            have h3 := @sumCallees_setAdd_found g.functions current node hcur visited hv
            rw [List.length_append]
            omega
          rw [transGo_step_some hv hcur, ih _ _ _ hbound w]
          exact pending_cons_some hv hcur

lemma transGo_nodup (g : CallGraph) :
    ∀ (fuel : Nat) (visited queue result : List String),
      result.Nodup → (transGo g fuel visited queue result).Nodup := by
  intro fuel
  induction fuel with
  | zero => intro v q r h; exact h
  | succ fuel ih =>
    intro v q r h
    cases q with
    | nil => rw [transGo_nil]; exact h
    | cons current rest =>
      by_cases hv : current ∈ v
      · rw [transGo_step_visited hv]
        exact ih _ _ _ h
      · cases hcur : mapGet g.functions current with
        | none =>
          rw [transGo_step_none hv hcur]
          exact ih _ _ _ h
        | some node =>
          rw [transGo_step_some hv hcur]
          exact ih _ _ _ (nodup_foldl_setAdd _ _ h)

lemma reachesAvoid_nil {g : CallGraph} {k m : String} :
    reachesAvoid g [] k m ↔ reaches g k m := by
  constructor
  · rintro ⟨hr, _⟩
    exact Relation.ReflTransGen.mono (fun a b h => h.2) hr
  · intro hr
    exact ⟨Relation.ReflTransGen.mono (fun a b h => ⟨List.not_mem_nil a, h⟩) hr,
      List.not_mem_nil m⟩

/-- C1: for every call graph — cycles, self-loops and mutual recursion
included — `getTransitivePvWrites(key)` returns exactly the union of the
`directPvWrites` sets of the nodes reachable from `key` along the callee
relation, with no key listed twice; and on the concrete spec scenario
(`a → b`, `b → a`, one direct write each) the call at `a` terminates with
both writes exactly once. -/
theorem getTransitivePvWrites_reachable_union :
    (∀ (g : CallGraph) (funcKey w : String),
        (w ∈ getTransitivePvWrites g funcKey ↔
          ∃ m, reaches g funcKey m ∧ w ∈ writesOf g m)
        ∧ (getTransitivePvWrites g funcKey).Nodup)
    ∧ getTransitivePvWrites gCycle keyA = ["var:x", "var:y"] := by
  refine ⟨fun g funcKey w => ⟨?_, transGo_nodup g _ _ _ _ List.nodup_nil⟩, by decide⟩
  have hbound : ([funcKey] : List String).length + sumCallees g.functions [] ≤
      transFuel g := by
    rw [sumCallees_nil_visited, transFuel, List.length_singleton]
  rw [getTransitivePvWrites, transGo_mem g (transFuel g) [] [funcKey] [] hbound w]
  simp only [List.not_mem_nil, false_or, pending]
  constructor
  · rintro ⟨k, hk, m, hra, hw⟩
    rcases List.mem_singleton.mp hk with rfl
    exact ⟨m, reachesAvoid_nil.mp hra, hw⟩
  · rintro ⟨m, hr, hw⟩
    exact ⟨funcKey, List.mem_singleton.mpr rfl, m, reachesAvoid_nil.mpr hr, hw⟩

/-! ### Claim C3: `removeFile` and dangling edge references -/

/-- The keys of the functions map are pairwise distinct (a JS `Map`
invariant). -/
def keysNodup (m : List (String × FunctionNode)) : Prop :=
  (m.map Prod.fst).Nodup

lemma mem_of_mapGet {m : List (String × FunctionNode)} {k : String}
    {v : FunctionNode} (h : mapGet m k = some v) : (k, v) ∈ m := by
  induction m with
  | nil => exact Option.noConfusion h
  | cons p rest ih =>
    unfold mapGet at h
    by_cases hp : p.1 = k
    · rw [if_pos hp] at h
      have hv : p.2 = v := Option.some.inj h
      subst hp
      subst hv
      exact List.mem_cons_self p rest
    · rw [if_neg hp] at h
      exact List.mem_cons_of_mem _ (ih h)

lemma mapGet_of_mem {m : List (String × FunctionNode)} (hN : keysNodup m)
    {k : String} {v : FunctionNode} (h : (k, v) ∈ m) : mapGet m k = some v := by
  induction m with
  | nil => exact absurd h (List.not_mem_nil _)
  | cons p rest ih =>
    unfold keysNodup at hN
    rw [List.map_cons, List.nodup_cons] at hN
    rcases List.mem_cons.mp h with rfl | h'
    · unfold mapGet
      rw [if_pos rfl]
    · have hp : p.1 ≠ k := by
        intro e
        exact hN.1 (e ▸ (List.mem_map.mpr ⟨(k, v), h', rfl⟩))
      unfold mapGet
      rw [if_neg hp]
      exact ih hN.2 h'

lemma setDelete_idem (s : List String) (k : String) :
    setDelete (setDelete s k) k = setDelete s k := by
  induction s with
  | nil => rfl
  | cons y rest ih =>
    by_cases hy : y = k
    · rw [setDelete, if_pos hy, ih]
    · rw [setDelete, if_neg hy, setDelete, if_neg hy, ih]

lemma updateNode_keysMap (m : List (String × FunctionNode)) (k : String)
    (f : FunctionNode → FunctionNode) :
    (updateNode m k f).map Prod.fst = m.map Prod.fst := by
  induction m with
  | nil => rfl
  | cons p rest ih =>
    unfold updateNode
    split
    · simp
    · simp [ih]

lemma foldl_updateNode_keysMap (f : FunctionNode → FunctionNode) :
    ∀ (L : List String) (m : List (String × FunctionNode)),
      ((L.foldl (fun acc c => updateNode acc c f) m).map Prod.fst) = m.map Prod.fst := by
  intro L
  induction L with
  | nil => intro m; rfl
  | cons c rest ih =>
    intro m
    rw [List.foldl_cons, ih, updateNode_keysMap]

lemma foldl_updateNode_get {f : FunctionNode → FunctionNode}
    (hf : ∀ n, f (f n) = f n) :
    ∀ (L : List String) (m : List (String × FunctionNode)) (x : String),
      mapGet (L.foldl (fun acc c => updateNode acc c f) m) x =
        if x ∈ L then (mapGet m x).map f else mapGet m x := by
  intro L
  induction L with
  | nil => intro m x; simp
  | cons c rest ih =>
    intro m x
    rw [List.foldl_cons, ih, mapGet_updateNode]
    by_cases hc : x = c
    · subst hc
      by_cases hr : x ∈ rest
      · rw [if_pos hr, if_pos rfl, if_pos (List.mem_cons_self _ _)]
        cases mapGet m x with
        | none => rfl
        | some n => simp [hf n]
      · rw [if_neg hr, if_pos rfl, if_pos (List.mem_cons_self _ _)]
    · by_cases hr : x ∈ rest
      · rw [if_pos hr, if_neg hc, if_pos (List.mem_cons_of_mem _ hr)]
      · rw [if_neg hr, if_neg hc,
          if_neg (fun h => (List.mem_cons.mp h).elim hc hr)]

lemma mem_mapDelete {β : Type} {m : List (String × β)} {k : String}
    {p : String × β} (h : p ∈ mapDelete m k) : p ∈ m := by
  induction m with
  | nil => exact absurd h (List.not_mem_nil _)
  | cons q rest ih =>
    unfold mapDelete at h
    split at h
    · exact List.mem_cons_of_mem _ h
    · rcases List.mem_cons.mp h with rfl | h'
      · exact List.mem_cons_self _ _
      · exact List.mem_cons_of_mem _ (ih h')

lemma mapGet_mapDelete_ne {β : Type} {m : List (String × β)} {k x : String}
    (hx : x ≠ k) : mapGet (mapDelete m k) x = mapGet m x := by
  induction m with
  | nil => rfl
  | cons q rest ih =>
    unfold mapDelete
    split
    · next hq =>
      rw [mapGet, if_neg (fun e : q.1 = x => hx (e.symm.trans hq))]
    · by_cases hqx : q.1 = x
      · rw [mapGet, mapGet, if_pos hqx, if_pos hqx]
      · rw [mapGet, mapGet, if_neg hqx, if_neg hqx, ih]

lemma mapDelete_keysMap_sublist {β : Type} (m : List (String × β)) (k : String) :
    List.Sublist ((mapDelete m k).map Prod.fst) (m.map Prod.fst) := by
  induction m with
  | nil => exact List.Sublist.refl _
  | cons q rest ih =>
    unfold mapDelete
    split
    · rw [List.map_cons]
      exact List.Sublist.cons _ (List.Sublist.refl _)
    · rw [List.map_cons, List.map_cons]
      exact List.Sublist.cons₂ _ ih

lemma mem_mapDelete_ne {m : List (String × FunctionNode)} (hN : keysNodup m)
    {k : String} {p : String × FunctionNode} (h : p ∈ mapDelete m k) : p.1 ≠ k := by
  induction m with
  | nil => exact absurd h (List.not_mem_nil _)
  | cons q rest ih =>
    unfold keysNodup at hN
    rw [List.map_cons, List.nodup_cons] at hN
    unfold mapDelete at h
    split at h
    · next hq =>
      intro e
      exact hN.1 (hq ▸ e ▸ List.mem_map.mpr ⟨p, h, rfl⟩)
    · rcases List.mem_cons.mp h with rfl | h'
      · next hq => exact hq
      · exact ih hN.2 h'

/-- Edge symmetry: whenever a node lists `k` among its callees and `k` is
registered, the node at `k` lists it back among its callers, and dually.
States built only through `addFunction` on fresh names and `addEdge` with both
endpoints registered satisfy this. -/
def edgeSym (g : CallGraph) : Prop :=
  ∀ p ∈ g.functions,
    (∀ k ∈ p.2.callees, ∀ q ∈ g.functions, q.1 = k → p.1 ∈ q.2.callers)
    ∧ (∀ k ∈ p.2.callers, ∀ q ∈ g.functions, q.1 = k → p.1 ∈ q.2.callees)

instance (m : List (String × FunctionNode)) : Decidable (keysNodup m) :=
  inferInstanceAs (Decidable ((m.map Prod.fst).Nodup))

instance (g : CallGraph) : Decidable (edgeSym g) :=
  inferInstanceAs (Decidable (∀ p ∈ g.functions,
    (∀ k ∈ p.2.callees, ∀ q ∈ g.functions, q.1 = k → p.1 ∈ q.2.callers)
    ∧ (∀ k ∈ p.2.callers, ∀ q ∈ g.functions, q.1 = k → p.1 ∈ q.2.callees)))

lemma removeOne_absent {g : CallGraph} {key : String}
    (h : mapGet g.functions key = none) : removeOne g key = g := by
  unfold removeOne
  rw [h]

lemma removeOne_functions_some {g : CallGraph} {key : String} {node : FunctionNode}
    (h : mapGet g.functions key = some node) :
    (removeOne g key).functions =
      mapDelete
        (node.callees.foldl (fun fns calleeKey =>
          updateNode fns calleeKey (fun n => { n with callers := setDelete n.callers key }))
          (node.callers.foldl (fun fns callerKey =>
            updateNode fns callerKey (fun n => { n with callees := setDelete n.callees key }))
            g.functions)) key := by
  unfold removeOne
  rw [h]

lemma removeOne_get_precise {g : CallGraph} {key : String} {node : FunctionNode}
    (h : mapGet g.functions key = some node) (x : String) (hx : x ≠ key) :
    mapGet (removeOne g key).functions x =
      Option.map (fun n0 =>
        { n0 with
          callees := if x ∈ node.callers then setDelete n0.callees key else n0.callees,
          callers := if x ∈ node.callees then setDelete n0.callers key else n0.callers })
        (mapGet g.functions x) := by
  rw [removeOne_functions_some h, mapGet_mapDelete_ne hx,
    foldl_updateNode_get (fun n => by simp [setDelete_idem]),
    foldl_updateNode_get (fun n => by simp [setDelete_idem])]
  by_cases h1 : x ∈ node.callees <;> by_cases h2 : x ∈ node.callers <;>
    cases mapGet g.functions x <;> simp [h1, h2]

/-- One node's edge sets are contained in another's. -/
def shrinksTo (a b : FunctionNode) : Prop :=
  (∀ x ∈ a.callees, x ∈ b.callees) ∧ (∀ x ∈ a.callers, x ∈ b.callers)

lemma shrinksTo_refl (a : FunctionNode) : shrinksTo a a :=
  ⟨fun _ hx => hx, fun _ hx => hx⟩

lemma shrinksTo_trans {a b c : FunctionNode} (h1 : shrinksTo a b)
    (h2 : shrinksTo b c) : shrinksTo a c :=
  ⟨fun x hx => h2.1 x (h1.1 x hx), fun x hx => h2.2 x (h1.2 x hx)⟩

lemma updateNode_shrink {f : FunctionNode → FunctionNode}
    (hf : ∀ n, shrinksTo (f n) n) :
    ∀ {m : List (String × FunctionNode)} {k : String} (p' : String × FunctionNode),
      p' ∈ updateNode m k f → ∃ p ∈ m, p'.1 = p.1 ∧ shrinksTo p'.2 p.2 := by
  intro m
  induction m with
  | nil => intro k p' hp'; exact absurd hp' (List.not_mem_nil _)
  | cons q rest ih =>
    intro k p' hp'
    unfold updateNode at hp'
    split at hp'
    · rcases List.mem_cons.mp hp' with rfl | h'
      · exact ⟨q, List.mem_cons_self _ _, rfl, hf q.2⟩
      · exact ⟨p', List.mem_cons_of_mem _ h', rfl, shrinksTo_refl _⟩
    · rcases List.mem_cons.mp hp' with rfl | h'
      · exact ⟨p', List.mem_cons_self _ _, rfl, shrinksTo_refl _⟩
      · obtain ⟨p, hp, he, hs⟩ := ih p' h'
        exact ⟨p, List.mem_cons_of_mem _ hp, he, hs⟩

lemma foldl_updateNode_shrink {f : FunctionNode → FunctionNode}
    (hf : ∀ n, shrinksTo (f n) n) :
    ∀ (L : List String) (m : List (String × FunctionNode)) (p' : String × FunctionNode),
      p' ∈ L.foldl (fun acc c => updateNode acc c f) m →
      ∃ p ∈ m, p'.1 = p.1 ∧ shrinksTo p'.2 p.2 := by
  intro L
  induction L with
  | nil => intro m p' hp'; exact ⟨p', hp', rfl, shrinksTo_refl _⟩
  | cons c rest ih =>
    intro m p' hp'
    rw [List.foldl_cons] at hp'
    obtain ⟨p1, hp1, he1, hs1⟩ := ih _ p' hp'
    obtain ⟨p, hp, he, hs⟩ := updateNode_shrink hf p1 hp1
    exact ⟨p, hp, he1.trans he, shrinksTo_trans hs1 hs⟩

lemma removeOne_keysNodup {g : CallGraph} {key : String}
    (hN : keysNodup g.functions) : keysNodup (removeOne g key).functions := by
  cases hk : mapGet g.functions key with
  | none => rw [removeOne_absent hk]; exact hN
  | some node =>
    rw [removeOne_functions_some hk]
    unfold keysNodup
    refine List.Nodup.sublist (mapDelete_keysMap_sublist _ _) ?_
    rw [foldl_updateNode_keysMap, foldl_updateNode_keysMap]
    exact hN

lemma removeOne_mem_ne {g : CallGraph} {key : String}
    (hN : keysNodup g.functions) {node : FunctionNode}
    (h : mapGet g.functions key = some node) {p : String × FunctionNode}
    (hp : p ∈ (removeOne g key).functions) : p.1 ≠ key := by
  rw [removeOne_functions_some h] at hp
  refine mem_mapDelete_ne ?_ hp
  unfold keysNodup
  rw [foldl_updateNode_keysMap, foldl_updateNode_keysMap]
  exact hN

lemma removeOne_get_isSome {g : CallGraph} {key x : String} (hx : x ≠ key) :
    (mapGet (removeOne g key).functions x).isSome =
      (mapGet g.functions x).isSome := by
  cases hk : mapGet g.functions key with
  | none => rw [removeOne_absent hk]
  | some node =>
    rw [removeOne_get_precise hk x hx]
    cases mapGet g.functions x <;> rfl

lemma removeOne_shrink {g : CallGraph} {key : String} (p' : String × FunctionNode)
    (hp' : p' ∈ (removeOne g key).functions) :
    ∃ p ∈ g.functions, p'.1 = p.1 ∧ shrinksTo p'.2 p.2 := by
  cases hk : mapGet g.functions key with
  | none =>
    rw [removeOne_absent hk] at hp'
    exact ⟨p', hp', rfl, shrinksTo_refl _⟩
  | some node =>
    rw [removeOne_functions_some hk] at hp'
    have h2 := mem_mapDelete hp'
    obtain ⟨p1, hp1, he1, hs1⟩ := @foldl_updateNode_shrink
      (fun n => { n with callers := setDelete n.callers key })
      (fun n => ⟨fun x hx => hx, fun x hx => ((mem_setDelete _ _ _).mp hx).1⟩) _ _ p' h2
    obtain ⟨p, hp, he, hs⟩ := @foldl_updateNode_shrink
      (fun n => { n with callees := setDelete n.callees key })
      (fun n => ⟨fun x hx => ((mem_setDelete _ _ _).mp hx).1, fun x hx => hx⟩) _ _ p1 hp1
    exact ⟨p, hp, he1.trans he, shrinksTo_trans hs1 hs⟩

/-- After removing one registered key, no surviving node references it —
provided the graph's edges were symmetric. -/
lemma removeOne_clean {g : CallGraph} {key : String} {node : FunctionNode}
    (hN : keysNodup g.functions) (hsym : edgeSym g)
    (h : mapGet g.functions key = some node) :
    ∀ p ∈ (removeOne g key).functions, key ∉ p.2.callees ∧ key ∉ p.2.callers := by
  intro p hp
  obtain ⟨x, v⟩ := p
  have hne : x ≠ key := removeOne_mem_ne hN h hp
  have hNnew : keysNodup (removeOne g key).functions := removeOne_keysNodup hN
  have hget : mapGet (removeOne g key).functions x = some v := mapGet_of_mem hNnew hp
  rw [removeOne_get_precise h x hne] at hget
  cases hg0 : mapGet g.functions x with
  | none => rw [hg0] at hget; exact Option.noConfusion hget
  | some n0 =>
    rw [hg0] at hget
    have hv : v = { n0 with
        callees := if x ∈ node.callers then setDelete n0.callees key else n0.callees,
        callers := if x ∈ node.callees then setDelete n0.callers key else n0.callers } :=
      (Option.some.inj hget).symm
    subst hv
    constructor
    · show key ∉ (if x ∈ node.callers then setDelete n0.callees key else n0.callees)
      by_cases hc : x ∈ node.callers
      · rw [if_pos hc]
        intro hk
        exact ((mem_setDelete _ _ _).mp hk).2 rfl
      · rw [if_neg hc]
        intro hk
        exact hc ((hsym (x, n0) (mem_of_mapGet hg0)).1 key hk (key, node)
          (mem_of_mapGet h) rfl)
    · show key ∉ (if x ∈ node.callees then setDelete n0.callers key else n0.callers)
      by_cases hc : x ∈ node.callees
      · rw [if_pos hc]
        intro hk
        exact ((mem_setDelete _ _ _).mp hk).2 rfl
      · rw [if_neg hc]
        intro hk
        exact hc ((hsym (x, n0) (mem_of_mapGet hg0)).2 key hk (key, node)
          (mem_of_mapGet h) rfl)

/-- Removing one key preserves edge symmetry among the survivors. -/
lemma removeOne_sym {g : CallGraph} {key : String}
    (hN : keysNodup g.functions) (hsym : edgeSym g) : edgeSym (removeOne g key) := by
  cases hk : mapGet g.functions key with
  | none => rw [removeOne_absent hk]; exact hsym
  | some node =>
    have hNnew : keysNodup (removeOne g key).functions := removeOne_keysNodup hN
    intro p' hp'
    obtain ⟨x, v⟩ := p'
    have hnex : x ≠ key := removeOne_mem_ne hN hk hp'
    have hgx : mapGet (removeOne g key).functions x = some v := mapGet_of_mem hNnew hp'
    rw [removeOne_get_precise hk x hnex] at hgx
    cases hg0 : mapGet g.functions x with
    | none => rw [hg0] at hgx; exact Option.noConfusion hgx
    | some n0 =>
      rw [hg0] at hgx
      have hv : v = { n0 with
          callees := if x ∈ node.callers then setDelete n0.callees key else n0.callees,
          callers := if x ∈ node.callees then setDelete n0.callers key else n0.callers } :=
        (Option.some.inj hgx).symm
      subst hv
      constructor
      · intro k hkmem q' hq' hqk
        obtain ⟨y, w⟩ := q'
        have hyk : y = k := hqk
        subst hyk
        have hney : y ≠ key := removeOne_mem_ne hN hk hq'
        have hgy : mapGet (removeOne g key).functions y = some w := mapGet_of_mem hNnew hq'
        rw [removeOne_get_precise hk y hney] at hgy
        cases hg1 : mapGet g.functions y with
        | none => rw [hg1] at hgy; exact Option.noConfusion hgy
        | some n1 =>
          rw [hg1] at hgy
          have hw : w = { n1 with
              callees := if y ∈ node.callers then setDelete n1.callees key else n1.callees,
              callers := if y ∈ node.callees then setDelete n1.callers key else n1.callers } :=
            (Option.some.inj hgy).symm
          subst hw
          have hkmem' : y ∈ (if x ∈ node.callers then setDelete n0.callees key
              else n0.callees) := hkmem
          have hkmem0 : y ∈ n0.callees := by
            by_cases hc : x ∈ node.callers
            · rw [if_pos hc] at hkmem'
              exact ((mem_setDelete _ _ _).mp hkmem').1
            · rw [if_neg hc] at hkmem'
              exact hkmem'
          have hx1 : x ∈ n1.callers :=
            (hsym (x, n0) (mem_of_mapGet hg0)).1 y hkmem0 (y, n1) (mem_of_mapGet hg1) rfl
          show x ∈ (if y ∈ node.callees then setDelete n1.callers key else n1.callers)
          by_cases hc : y ∈ node.callees
          · rw [if_pos hc]
            exact (mem_setDelete _ _ _).mpr ⟨hx1, hnex⟩
          · rw [if_neg hc]
            exact hx1
      · intro k hkmem q' hq' hqk
        obtain ⟨y, w⟩ := q'
        have hyk : y = k := hqk
        subst hyk
        have hney : y ≠ key := removeOne_mem_ne hN hk hq'
        have hgy : mapGet (removeOne g key).functions y = some w := mapGet_of_mem hNnew hq'
        rw [removeOne_get_precise hk y hney] at hgy
        cases hg1 : mapGet g.functions y with
        | none => rw [hg1] at hgy; exact Option.noConfusion hgy
        | some n1 =>
          rw [hg1] at hgy
          have hw : w = { n1 with
              callees := if y ∈ node.callers then setDelete n1.callees key else n1.callees,
              callers := if y ∈ node.callees then setDelete n1.callers key else n1.callers } :=
            (Option.some.inj hgy).symm
          subst hw
          have hkmem' : y ∈ (if x ∈ node.callees then setDelete n0.callers key
              else n0.callers) := hkmem
          have hkmem0 : y ∈ n0.callers := by
            by_cases hc : x ∈ node.callees
            · rw [if_pos hc] at hkmem'
              exact ((mem_setDelete _ _ _).mp hkmem').1
            · rw [if_neg hc] at hkmem'
              exact hkmem'
          have hx1 : x ∈ n1.callees :=
            (hsym (x, n0) (mem_of_mapGet hg0)).2 y hkmem0 (y, n1) (mem_of_mapGet hg1) rfl
          show x ∈ (if y ∈ node.callers then setDelete n1.callees key else n1.callees)
          by_cases hc : y ∈ node.callers
          · rw [if_pos hc]
            exact (mem_setDelete _ _ _).mpr ⟨hx1, hnex⟩
          · rw [if_neg hc]
            exact hx1

lemma foldl_removeOne_shrink :
    ∀ (L : List String) (g : CallGraph) (p' : String × FunctionNode),
      p' ∈ (L.foldl removeOne g).functions →
      ∃ p ∈ g.functions, p'.1 = p.1 ∧ shrinksTo p'.2 p.2 := by
  intro L
  induction L with
  | nil => intro g p' hp'; exact ⟨p', hp', rfl, shrinksTo_refl _⟩
  | cons key rest ih =>
    intro g p' hp'
    rw [List.foldl_cons] at hp'
    obtain ⟨p1, hp1, he1, hs1⟩ := ih _ p' hp'
    obtain ⟨p, hp, he, hs⟩ := removeOne_shrink p1 hp1
    exact ⟨p, hp, he1.trans he, shrinksTo_trans hs1 hs⟩

lemma foldl_removeOne_clean :
    ∀ (L : List String) (g : CallGraph),
      keysNodup g.functions → edgeSym g → L.Nodup →
      (∀ k ∈ L, ∃ n, mapGet g.functions k = some n) →
      ∀ k ∈ L, ∀ p ∈ (L.foldl removeOne g).functions,
        k ∉ p.2.callees ∧ k ∉ p.2.callers := by
  intro L
  induction L with
  | nil => intro g _ _ _ _ k hk; exact absurd hk (List.not_mem_nil _)
  | cons key rest ih =>
    intro g hN hsym hnodup hreg k hk p hp
    obtain ⟨node, hnode⟩ := hreg key (List.mem_cons_self _ _)
    rw [List.foldl_cons] at hp
    rcases List.mem_cons.mp hk with rfl | hk'
    · obtain ⟨q, hq, _, hshr⟩ := foldl_removeOne_shrink rest (removeOne g k) p hp
      have hclean := removeOne_clean hN hsym hnode q hq
      exact ⟨fun hmem => hclean.1 (hshr.1 _ hmem), fun hmem => hclean.2 (hshr.2 _ hmem)⟩
    · have hN1 : keysNodup (removeOne g key).functions := removeOne_keysNodup hN
      have hsym1 : edgeSym (removeOne g key) := removeOne_sym hN hsym
      have hreg1 : ∀ k' ∈ rest, ∃ n, mapGet (removeOne g key).functions k' = some n := by
        intro k' hk1
        have hne : k' ≠ key := fun e => (List.nodup_cons.mp hnodup).1 (e ▸ hk1)
        obtain ⟨n, hn⟩ := hreg k' (List.mem_cons_of_mem _ hk1)
        have hs := @removeOne_get_isSome g key k' hne
        rw [hn] at hs
        cases hx : mapGet (removeOne g key).functions k' with
        | none => rw [hx] at hs; exact Bool.noConfusion hs
        | some m => exact ⟨m, rfl⟩
      exact ih (removeOne g key) hN1 hsym1 (List.nodup_cons.mp hnodup).2 hreg1 k hk' p hp

/-- Concrete symmetric graph for the C3 witness: `a` and `file:///b.py#b`
both registered, then one edge between them. -/
def gSym : CallGraph :=
  addEdge (addFunction (addFunction emptyGraph defA) defBother) keyA keyBother

/-- C3 counterexample: on the reachable state `gDangling` — built with
`addFunction a`, `addEdge a →file:///b.py#b` while that callee was still
unregistered, then `addFunction` of the callee — `removeFile("file:///b.py")`
removes the node owned by that uri yet leaves its key inside the surviving
node's callee set: a dangling reference. -/
theorem removeFile_dangling_cex :
    (mapGet gDangling.functions keyBother).map (fun n => n.def_.uri) =
        some "file:///b.py"
    ∧ mapGet (removeFile gDangling "file:///b.py").functions keyBother = none
    ∧ mapGet (removeFile gDangling "file:///b.py").functions keyA =
        some ⟨defA, [keyBother], [], [], []⟩
    ∧ keyBother ∈ calleesOf (removeFile gDangling "file:///b.py") keyA := by
  decide

/-- C3 amended: on call graph states with duplicate-free keys whose edge sets
are symmetric (every recorded edge has its back-edge whenever the opposite
endpoint is registered — true of states built via `addFunction` on fresh
names and `addEdge` between registered nodes), `removeFile(uri)` leaves no
surviving node whose callee or caller set mentions a key registered to the
removed uri.  On arbitrary reachable states the claim fails, because
`addEdge` with one unregistered endpoint (or `addFunction` re-registration)
creates asymmetric edges that `removeFile` does not clean. -/
theorem removeFile_no_dangling_of_symmetric (g : CallGraph) (uri : String)
    (hN : keysNodup g.functions) (hsym : edgeSym g) :
    ∀ p ∈ (removeFile g uri).functions, ∀ (k : String) (n0 : FunctionNode),
      mapGet g.functions k = some n0 → n0.def_.uri = uri →
      k ∉ p.2.callees ∧ k ∉ p.2.callers := by
  intro p hp k n0 hk huri
  have hmemk : k ∈ (g.functions.filter (fun q => q.2.def_.uri = uri)).map Prod.fst := by
    refine List.mem_map.mpr ⟨(k, n0), List.mem_filter.mpr ⟨mem_of_mapGet hk, ?_⟩, rfl⟩
    exact decide_eq_true huri
  have hsubl : List.Sublist
      ((g.functions.filter (fun q => q.2.def_.uri = uri)).map Prod.fst)
      (g.functions.map Prod.fst) :=
    (List.filter_sublist _).map Prod.fst
  have hnodupL := hN.sublist hsubl
  have hregL : ∀ k' ∈ (g.functions.filter (fun q => q.2.def_.uri = uri)).map Prod.fst,
      ∃ n, mapGet g.functions k' = some n := by
    intro k' hk'
    obtain ⟨q, hq, hqe⟩ := List.mem_map.mp hk'
    obtain ⟨y, w⟩ := q
    exact hqe ▸ ⟨w, mapGet_of_mem hN (List.mem_filter.mp hq).1⟩
  exact foldl_removeOne_clean _ g hN hsym hnodupL hregL k hmemk p hp

/-- Witness for the amended C3: a concrete symmetric two-node graph; after
removing `file:///b.py`, the surviving node at `a` references neither of the
removed keys. -/
theorem removeFile_no_dangling_of_symmetric_witness :
    keyBother ∉ (FunctionNode.mk defA [] [] [] []).callees
    ∧ keyBother ∉ (FunctionNode.mk defA [] [] [] []).callers :=
  removeFile_no_dangling_of_symmetric gSym "file:///b.py" (by decide) (by decide)
    ("file:///a.py#a", ⟨defA, [], [], [], []⟩) (by decide)
    keyBother ⟨defBother, [], [keyA], [], []⟩ (by decide) (by decide)

/-! ### Claim C5: `resolveCallTarget` from `importResolver.ts` -/

/-- `ImportBinding` from `importResolver.ts`; the nullable `resolvedUri`
becomes an `Option`. -/
structure ImportBinding where
  localName : String
  remoteName : String
  resolvedUri : Option String
  modulePath : String
  isWildcard : Bool
deriving DecidableEq, Repr

/-- JS truthiness of the nullable string `resolvedUri`: `null` and the empty
string are falsy. -/
def truthyUri : Option String → Bool
  | none => false
  | some s => decide (s ≠ "")

/-- The `for (const imp of imports)` loop of `resolveCallTarget`. -/
def resolveLoop (localName : String) : List ImportBinding → Option (String × String)
  | [] => none
  | imp :: rest =>
    if imp.localName == localName && truthyUri imp.resolvedUri then
      some (imp.resolvedUri.getD "", imp.remoteName)
    else resolveLoop localName rest

/-- `ImportResolver.resolveCallTarget`. -/
def resolveCallTarget (localName fileUri : String)
    (importsByFile : List (String × List ImportBinding)) : Option (String × String) :=
  match mapGet importsByFile fileUri with
  | none => none
  | some imports => resolveLoop localName imports

lemma resolveLoop_eq_find (localName : String) :
    ∀ imports : List ImportBinding,
      resolveLoop localName imports =
        (imports.find? (fun imp =>
          imp.localName == localName && truthyUri imp.resolvedUri)).map
          (fun imp => (imp.resolvedUri.getD "", imp.remoteName)) := by
  intro imports
  induction imports with
  | nil => rfl
  | cons imp rest ih =>
    unfold resolveLoop
    cases hc : (imp.localName == localName && truthyUri imp.resolvedUri) with
    | true => simp [List.find?, hc]
    | false => simp [List.find?, hc, ih]

/-- Concrete bindings for the C5 counterexample: the first binding for local
name `f` is unresolved, the second is resolved. -/
def bUnresolved : ImportBinding := ⟨"f", "g1", none, "mod1", false⟩

def bResolved : ImportBinding :=
  ⟨"f", "g2", some "file:///x/helpers.py", "helpers", false⟩

def importsCex : List (String × List ImportBinding) :=
  [("file:///x/main.py", [bUnresolved, bResolved])]

/-- C5 counterexample: the first binding whose local name matches is
`bUnresolved` (remote name `g1`, no resolved uri), yet `resolveCallTarget`
returns a pair built from the *second* binding — so it does not return "the
first binding whose local name matches paired with its resolved uri and
remote name". -/
theorem resolveCallTarget_skips_unresolved_cex :
    ((mapGet importsCex "file:///x/main.py").getD []).find?
        (fun imp => imp.localName == "f") = some bUnresolved
    ∧ bUnresolved.resolvedUri = none
    ∧ resolveCallTarget "f" "file:///x/main.py" importsCex =
        some ("file:///x/helpers.py", "g2")
    ∧ bUnresolved.remoteName ≠ "g2" := by
  decide

/-- C5 amended: `resolveCallTarget(localName, fileUri, importsByFile)` returns
the first binding declared in that file whose local name matches *and* whose
`resolvedUri` is truthy (non-null, non-empty), paired with that resolved uri
and remote name; it returns null when no such binding exists (in particular
when the file has no imports entry).  When several qualifying bindings bind
the same local name it deterministically picks the first declared one. -/
theorem resolveCallTarget_first_resolved_binding
    (localName fileUri : String) (importsByFile : List (String × List ImportBinding)) :
    resolveCallTarget localName fileUri importsByFile =
      (((mapGet importsByFile fileUri).getD []).find?
        (fun imp => imp.localName == localName && truthyUri imp.resolvedUri)).map
        (fun imp => (imp.resolvedUri.getD "", imp.remoteName)) := by
  unfold resolveCallTarget
  cases mapGet importsByFile fileUri with
  | none => rfl
  | some imports => exact resolveLoop_eq_find localName imports

/-! ### Claim C8: analyzer dispatch isolates failures -/

/-- An analyzer as the dispatch boundary sees it: an id and a point query that
may raise (modelled with `Except`).  `getDiagnostics` is the representative
operation; `analyze` and the other point queries are dispatched with the
identical `try`/`catch` pattern. -/
structure Analyzer (Ctx Diag : Type) where
  id : String
  getDiagnostics : Ctx → Except String (List Diag)

/-- `AnalyzerRegistry.getDiagnostics`: visit every analyzer in registration
order, appending its diagnostics; a raising analyzer contributes nothing and
the loop continues. -/
def registryGetDiagnostics {Ctx Diag : Type} (analyzers : List (Analyzer Ctx Diag))
    (doc : Ctx) : List Diag :=
  analyzers.foldl (fun diags a =>
    match a.getDiagnostics doc with
    | Except.ok ds => diags ++ ds
    | Except.error _ => diags) []

lemma registryGetDiagnostics_acc {Ctx Diag : Type} (doc : Ctx) :
    ∀ (l : List (Analyzer Ctx Diag)) (acc : List Diag),
      l.foldl (fun diags a =>
        match a.getDiagnostics doc with
        | Except.ok ds => diags ++ ds
        | Except.error _ => diags) acc
      = acc ++ registryGetDiagnostics l doc := by
  intro l
  induction l with
  | nil => intro acc; simp [registryGetDiagnostics]
  | cons a rest ih =>
    intro acc
    unfold registryGetDiagnostics
    rw [List.foldl_cons, List.foldl_cons, ih, ih]
    cases a.getDiagnostics doc <;> simp

/-- C8: an analyzer whose point query raises is isolated at the dispatch
boundary — removing it changes nothing, and in particular every other
registered analyzer is still invoked and its diagnostics are still returned
to the caller, in registration order. -/
theorem getDiagnostics_isolates_failures {Ctx Diag : Type}
    (pre post : List (Analyzer Ctx Diag)) (bad : Analyzer Ctx Diag)
    (doc : Ctx) (e : String) (hbad : bad.getDiagnostics doc = Except.error e) :
    registryGetDiagnostics (pre ++ bad :: post) doc =
      registryGetDiagnostics (pre ++ post) doc
    ∧ registryGetDiagnostics (pre ++ post) doc =
        registryGetDiagnostics pre doc ++ registryGetDiagnostics post doc := by
  constructor
  · unfold registryGetDiagnostics
    rw [List.foldl_append, List.foldl_append, List.foldl_cons, hbad]
  · unfold registryGetDiagnostics
    rw [List.foldl_append]
    exact registryGetDiagnostics_acc doc post _

/-- Concrete analyzers for the C8 witness. -/
def analyzerOkA : Analyzer Unit String := ⟨"pv", fun _ => Except.ok ["diag1"]⟩

def analyzerOkB : Analyzer Unit String := ⟨"callGraph", fun _ => Except.ok ["diag2"]⟩

def analyzerBad : Analyzer Unit String := ⟨"boom", fun _ => Except.error "exception"⟩

/-- Witness for C8: with a raising analyzer between two healthy ones, the
dispatch returns exactly the healthy analyzers' diagnostics. -/
theorem getDiagnostics_isolates_failures_witness :
    registryGetDiagnostics [analyzerOkA, analyzerBad, analyzerOkB] () =
      registryGetDiagnostics [analyzerOkA, analyzerOkB] ()
    ∧ registryGetDiagnostics [analyzerOkA, analyzerOkB] () =
        registryGetDiagnostics [analyzerOkA] () ++ registryGetDiagnostics [analyzerOkB] () :=
  getDiagnostics_isolates_failures [analyzerOkA] [analyzerOkB] analyzerBad () "exception" rfl

/-! ### Claims C6, C7: the pseudo-variable parser (`pvParser.ts`)

`parsePvString` drives the global regex
`\$\((\w+)\(([^)]*)\)(?:\[([^\]]*)\])?\)|\$(\w+)\(([^)]*)\)|\$([a-zA-Z]\w*)|\$(\?)`
over the input.  The scan is embedded as a left-to-right scanner over the
character list: at each position a match of the four alternatives is
attempted in order; greedy sub-patterns (`\w+`, `[^)]*`, `[^\]]*`) are
maximal-munch (`takeWhile`), which is exact here because each quantified
class excludes the character the pattern requires next, so giving characters
back can never help; the optional `(?:\[...\])?` group and its fallback have
disjoint first characters (`[` vs `)`), so no backtracking across the group
is observable.  On a match the scan resumes after the matched text
(`lastIndex`), otherwise at the next character. -/

inductive PvCategory where
  | sip_header
  | sip_uri
  | script_var
  | avp
  | shared_var
  | htable
  | dialog_var
  | transaction
  | network
  | message
  | time
  | other
deriving DecidableEq, Repr

def SIP_URI_PVS : List String :=
  ["ru", "rU", "rUl", "rz", "fu", "fU", "fUl", "fti", "tu", "tU", "tUl", "tti", "tts",
   "ou", "oU", "oUl", "du", "su",
   "rd", "fd", "td", "od", "dd", "pd", "ad", "rp", "rP",
   "dp", "dP", "ds", "op", "oP", "fn", "tn", "pn",
   "au", "aU", "ar", "adu", "Au", "AU",
   "ai", "pu", "pU", "re", "rt", "route_uri"]

def NETWORK_PVS : List String :=
  ["si", "sp", "siz", "su", "sut", "sas",
   "Ri", "Rp", "Rn", "Ru", "Rut", "RAi", "RAp", "RAu", "RAut",
   "pr", "proto", "prid", "conid", "fs", "fsn"]

def MESSAGE_PVS : List String :=
  ["rm", "rmid", "rs", "rv", "cl", "rb", "ml", "mb", "mbu", "bs",
   "ct", "cT", "ctu", "cts", "ua",
   "mi", "mt", "cs", "csb", "ci", "ft", "tt"]

def categorizePv (pvClass : String) : PvCategory :=
  if pvClass = "hdr" ∨ pvClass = "hdrc" ∨ pvClass = "hfl" ∨ pvClass = "hflc" then
    .sip_header
  else if pvClass ∈ SIP_URI_PVS then .sip_uri
  else if pvClass = "var" ∨ pvClass = "vz" ∨ pvClass = "vn" then .script_var
  else if pvClass = "avp" ∨ pvClass = "xavp" ∨ pvClass = "xavu" ∨ pvClass = "xavi" then
    .avp
  else if pvClass = "shv" then .shared_var
  else if pvClass = "sht" ∨ pvClass.startsWith "sht" = true then .htable
  else if pvClass = "dlg_var" ∨ pvClass = "dlg" ∨ pvClass = "dlg_ctx" then .dialog_var
  else if pvClass = "T" ∨ pvClass.startsWith "T_" = true then .transaction
  else if pvClass ∈ NETWORK_PVS then .network
  else if pvClass ∈ MESSAGE_PVS then .message
  else if pvClass = "Ts" ∨ pvClass = "Tf" ∨ pvClass = "Tb" ∨ pvClass = "TS" ∨
      pvClass = "TF" ∨ pvClass = "TV" ∨ pvClass = "time" ∨ pvClass = "utime" then
    .time
  else .other

/-- `ParsedPv` from `pvParser.ts`. -/
structure ParsedPv where
  fullMatch : String
  pvClass : String
  innerName : Option String
  index : Option String
  offset : Nat
  length : Nat
  isBare : Bool
  category : PvCategory
deriving DecidableEq, Repr

/-- The regex word class `\w` (the regex has no unicode flag, so ASCII). -/
def isWordChar (c : Char) : Bool :=
  c.isAlpha || c.isDigit || c == '_'

/-- JS `match[n] || null`: an empty capture collapses to null. -/
def optStr (s : List Char) : Option String :=
  if s.isEmpty then none else some (String.mk s)

/-- One successful regex match: the characters of `match[0]` after the
leading `$`, the unconsumed suffix, and the capture-derived fields. -/
structure RawMatch where
  matched : List Char
  rest : List Char
  pvClass : String
  innerName : Option String
  index : Option String
  isBare : Bool
deriving DecidableEq, Repr

/-- Alternative 1, `\$\((\w+)\(([^)]*)\)(?:\[([^\]]*)\])?\)`, applied after
the `$`. -/
def tryBranch1 (cs : List Char) : Option RawMatch :=
  match cs with
  | '(' :: r1 =>
    let w := r1.takeWhile isWordChar
    let r2 := r1.dropWhile isWordChar
    if w.isEmpty then none
    else
      match r2 with
      | '(' :: r3 =>
        let inner := r3.takeWhile (fun c => !(c == ')'))
        let r4 := r3.dropWhile (fun c => !(c == ')'))
        match r4 with
        | ')' :: r5 =>
          match r5 with
          | '[' :: r6 =>
            let idx := r6.takeWhile (fun c => !(c == ']'))
            let r7 := r6.dropWhile (fun c => !(c == ']'))
            match r7 with
            | ']' :: ')' :: r9 =>
              some ⟨'(' :: w ++ '(' :: inner ++ ')' :: '[' :: idx ++ [']', ')'], r9,
                String.mk w, optStr inner, optStr idx, false⟩
            | _ => none
          | ')' :: r6 =>
            some ⟨'(' :: w ++ '(' :: inner ++ [')', ')'], r6,
              String.mk w, optStr inner, none, false⟩
          | _ => none
        | _ => none
      | _ => none
  | _ => none

/-- Alternative 2, `\$(\w+)\(([^)]*)\)`, applied after the `$`. -/
def tryBranch2 (cs : List Char) : Option RawMatch :=
  let w := cs.takeWhile isWordChar
  let r2 := cs.dropWhile isWordChar
  if w.isEmpty then none
  else
    match r2 with
    | '(' :: r3 =>
      let inner := r3.takeWhile (fun c => !(c == ')'))
      let r4 := r3.dropWhile (fun c => !(c == ')'))
      match r4 with
      | ')' :: r5 =>
        some ⟨w ++ '(' :: inner ++ [')'], r5, String.mk w, optStr inner, none, false⟩
      | _ => none
    | _ => none

/-- Alternative 3, `\$([a-zA-Z]\w*)`, applied after the `$`. -/
def tryBranch3 (cs : List Char) : Option RawMatch :=
  match cs with
  | c :: r1 =>
    if c.isAlpha then
      let w := r1.takeWhile isWordChar
      some ⟨c :: w, r1.dropWhile isWordChar, String.mk (c :: w), none, none, true⟩
    else none
  | [] => none

/-- Alternative 4, `\$(\?)`: the `$?` alias for `rc`. -/
def tryBranch4 (cs : List Char) : Option RawMatch :=
  match cs with
  | '?' :: r1 => some ⟨['?'], r1, "rc", none, none, true⟩
  | _ => none

/-- Attempt a regex match at this exact position: every alternative starts
with `\$`, then the alternatives apply in order. -/
def tryMatchAt (cs : List Char) : Option RawMatch :=
  match cs with
  | '$' :: rest =>
    match tryBranch1 rest with
    | some b => some { b with matched := '$' :: b.matched }
    | none =>
      match tryBranch2 rest with
      | some b => some { b with matched := '$' :: b.matched }
      | none =>
        match tryBranch3 rest with
        | some b => some { b with matched := '$' :: b.matched }
        | none =>
          match tryBranch4 rest with
          | some b => some { b with matched := '$' :: b.matched }
          | none => none
  | _ => none

/-- Build the `ParsedPv` pushed for one match at absolute offset `i`.  The
`match[0] === '$$'` guard in the source is unreachable (no alternative can
match `$$`), which claim C6 makes precise. -/
def mkParsedPv (m : RawMatch) (i : Nat) : ParsedPv :=
  { fullMatch := String.mk m.matched
    pvClass := m.pvClass
    innerName := m.innerName
    index := m.index
    offset := i
    length := m.matched.length
    isBare := m.isBare
    category := categorizePv m.pvClass }

/-- The `while ((match = pvRegex.exec(input)) !== null)` loop: scan left to
right; on a match emit it and resume after it, otherwise advance one
character.  Each step consumes at least one character, so `fuel := length`
never runs out. -/
def scanGo : Nat → List Char → Nat → List ParsedPv
  | 0, _, _ => []
  | _ + 1, [], _ => []
  | fuel + 1, c :: rest, i =>
    match tryMatchAt (c :: rest) with
    | some m => mkParsedPv m i :: scanGo fuel m.rest (i + m.matched.length)
    | none => scanGo fuel rest (i + 1)

/-- `parsePvString` from `pvParser.ts` (offsets count characters). -/
def parsePvString (input : String) : List ParsedPv :=
  scanGo input.length input.data 0

/-! Every successful branch consumes exactly the characters it reports:
`cs = matched ++ rest`. -/

lemma tryBranch2_split {cs : List Char} {b : RawMatch} (h : tryBranch2 cs = some b) :
    cs = b.matched ++ b.rest := by
  unfold tryBranch2 at h
  simp only [] at h
  split at h
  · exact Option.noConfusion h
  · split at h
    · next r3 heq =>
      split at h
      · next r5 heq2 =>
        have hb := Option.some.inj h
        subst hb
        have h1 : cs.takeWhile isWordChar ++ cs.dropWhile isWordChar = cs :=
          List.takeWhile_append_dropWhile _ _
        have h2 : r3.takeWhile (fun c => !(c == ')')) ++
            r3.dropWhile (fun c => !(c == ')')) = r3 :=
          List.takeWhile_append_dropWhile _ _
        rw [heq] at h1
        rw [heq2] at h2
        show cs = (cs.takeWhile isWordChar ++ '(' ::
          r3.takeWhile (fun c => !(c == ')')) ++ [')']) ++ r5
        generalize hw : List.takeWhile isWordChar cs = w0 at h1 ⊢
        generalize hi : List.takeWhile (fun c => !(c == ')')) r3 = i0 at h2 ⊢
        subst h1
        subst h2
        simp
      · exact Option.noConfusion h
    · exact Option.noConfusion h

lemma tryBranch1_split {cs : List Char} {b : RawMatch} (h : tryBranch1 cs = some b) :
    cs = b.matched ++ b.rest := by
  unfold tryBranch1 at h
  split at h
  · next r1 =>
    simp only [] at h
    split at h
    · exact Option.noConfusion h
    · split at h
      · next r3 heq =>
        split at h
        · next r5 heq2 =>
          split at h
          · next r6 =>
            split at h
            · next r9 heq3 =>
              have hb := Option.some.inj h
              subst hb
              have h1 : r1.takeWhile isWordChar ++ r1.dropWhile isWordChar = r1 :=
                List.takeWhile_append_dropWhile _ _
              have h2 : r3.takeWhile (fun c => !(c == ')')) ++
                  r3.dropWhile (fun c => !(c == ')')) = r3 :=
                List.takeWhile_append_dropWhile _ _
              have h3 : r6.takeWhile (fun c => !(c == ']')) ++
                  r6.dropWhile (fun c => !(c == ']')) = r6 :=
                List.takeWhile_append_dropWhile _ _
              rw [heq] at h1
              rw [heq2] at h2
              rw [heq3] at h3
              show '(' :: r1 = ('(' :: r1.takeWhile isWordChar ++ '(' ::
                r3.takeWhile (fun c => !(c == ')')) ++ ')' :: '[' ::
                r6.takeWhile (fun c => !(c == ']')) ++ [']', ')']) ++ r9
              generalize hw : List.takeWhile isWordChar r1 = w0 at h1 ⊢
              generalize hi : List.takeWhile (fun c => !(c == ')')) r3 = i0 at h2 ⊢
              generalize hx : List.takeWhile (fun c => !(c == ']')) r6 = x0 at h3 ⊢
              subst h1
              subst h2
              subst h3
              simp
            · exact Option.noConfusion h
          · next r6 =>
            have hb := Option.some.inj h
            subst hb
            have h1 : r1.takeWhile isWordChar ++ r1.dropWhile isWordChar = r1 :=
              List.takeWhile_append_dropWhile _ _
            have h2 : r3.takeWhile (fun c => !(c == ')')) ++
                r3.dropWhile (fun c => !(c == ')')) = r3 :=
              List.takeWhile_append_dropWhile _ _
            rw [heq] at h1
            rw [heq2] at h2
            show '(' :: r1 = ('(' :: r1.takeWhile isWordChar ++ '(' ::
              r3.takeWhile (fun c => !(c == ')')) ++ [')', ')']) ++ r6
            generalize hw : List.takeWhile isWordChar r1 = w0 at h1 ⊢
            generalize hi : List.takeWhile (fun c => !(c == ')')) r3 = i0 at h2 ⊢
            subst h1
            subst h2
            simp
          · exact Option.noConfusion h
        · exact Option.noConfusion h
      · exact Option.noConfusion h
  · exact Option.noConfusion h

lemma tryBranch3_split {cs : List Char} {b : RawMatch} (h : tryBranch3 cs = some b) :
    cs = b.matched ++ b.rest := by
  unfold tryBranch3 at h
  split at h
  · next c r1 =>
    simp only [] at h
    split at h
    · have hb := Option.some.inj h
      subst hb
      show c :: r1 = (c :: r1.takeWhile isWordChar) ++ r1.dropWhile isWordChar
      rw [List.cons_append, List.takeWhile_append_dropWhile]
    · exact Option.noConfusion h
  · exact Option.noConfusion h

lemma tryBranch4_split {cs : List Char} {b : RawMatch} (h : tryBranch4 cs = some b) :
    cs = b.matched ++ b.rest := by
  unfold tryBranch4 at h
  split at h
  · next r1 =>
    have hb := Option.some.inj h
    subst hb
    rfl
  · exact Option.noConfusion h

lemma tryMatchAt_split {cs : List Char} {m : RawMatch} (h : tryMatchAt cs = some m) :
    cs = m.matched ++ m.rest := by
  unfold tryMatchAt at h
  split at h
  · next rest =>
    split at h
    · next b heqB =>
      have hb := Option.some.inj h
      subst hb
      show '$' :: rest = ('$' :: b.matched) ++ b.rest
      rw [List.cons_append, tryBranch1_split heqB]
    · split at h
      · next b heqB =>
        have hb := Option.some.inj h
        subst hb
        show '$' :: rest = ('$' :: b.matched) ++ b.rest
        rw [List.cons_append, tryBranch2_split heqB]
      · split at h
        · next b heqB =>
          have hb := Option.some.inj h
          subst hb
          show '$' :: rest = ('$' :: b.matched) ++ b.rest
          rw [List.cons_append, tryBranch3_split heqB]
        · split at h
          · next b heqB =>
            have hb := Option.some.inj h
            subst hb
            show '$' :: rest = ('$' :: b.matched) ++ b.rest
            rw [List.cons_append, tryBranch4_split heqB]
          · exact Option.noConfusion h
  · exact Option.noConfusion h

/-! No branch can produce the text `$$`. -/

lemma tryBranch1_not_dollar {cs : List Char} {b : RawMatch}
    (h : tryBranch1 cs = some b) : b.matched ≠ ['$'] := by
  unfold tryBranch1 at h
  split at h
  · simp only [] at h
    split at h
    · exact Option.noConfusion h
    · split at h
      · split at h
        · split at h
          · split at h
            · have hb := Option.some.inj h
              subst hb
              intro e
              exact absurd (List.head_eq_of_cons_eq e) (by decide)
            · exact Option.noConfusion h
          · have hb := Option.some.inj h
            subst hb
            intro e
            exact absurd (List.head_eq_of_cons_eq e) (by decide)
          · exact Option.noConfusion h
        · exact Option.noConfusion h
      · exact Option.noConfusion h
  · exact Option.noConfusion h

lemma tryBranch2_not_dollar {cs : List Char} {b : RawMatch}
    (h : tryBranch2 cs = some b) : b.matched ≠ ['$'] := by
  unfold tryBranch2 at h
  simp only [] at h
  split at h
  · exact Option.noConfusion h
  · split at h
    · split at h
      · have hb := Option.some.inj h
        subst hb
        intro e
        have hlen := congrArg List.length e
        simp only [List.length_append, List.length_cons, List.length_nil] at hlen
        omega
      · exact Option.noConfusion h
    · exact Option.noConfusion h

lemma tryBranch3_not_dollar {cs : List Char} {b : RawMatch}
    (h : tryBranch3 cs = some b) : b.matched ≠ ['$'] := by
  unfold tryBranch3 at h
  split at h
  · simp only [] at h
    split at h
    · next hc =>
      have hb := Option.some.inj h
      subst hb
      intro e
      rw [List.head_eq_of_cons_eq e] at hc
      exact absurd hc (by decide)
    · exact Option.noConfusion h
  · exact Option.noConfusion h

lemma tryBranch4_not_dollar {cs : List Char} {b : RawMatch}
    (h : tryBranch4 cs = some b) : b.matched ≠ ['$'] := by
  unfold tryBranch4 at h
  split at h
  · have hb := Option.some.inj h
    subst hb
    show (['?'] : List Char) ≠ ['$']
    decide
  · exact Option.noConfusion h

lemma tryMatchAt_not_double_dollar {cs : List Char} {m : RawMatch}
    (h : tryMatchAt cs = some m) : m.matched ≠ ['$', '$'] := by
  unfold tryMatchAt at h
  split at h
  · split at h
    · next b heqB =>
      have hb := Option.some.inj h
      subst hb
      intro e
      exact tryBranch1_not_dollar heqB (List.tail_eq_of_cons_eq e)
    · split at h
      · next b heqB =>
        have hb := Option.some.inj h
        subst hb
        intro e
        exact tryBranch2_not_dollar heqB (List.tail_eq_of_cons_eq e)
      · split at h
        · next b heqB =>
          have hb := Option.some.inj h
          subst hb
          intro e
          exact tryBranch3_not_dollar heqB (List.tail_eq_of_cons_eq e)
        · split at h
          · next b heqB =>
            have hb := Option.some.inj h
            subst hb
            intro e
            exact tryBranch4_not_dollar heqB (List.tail_eq_of_cons_eq e)
          · exact Option.noConfusion h
  · exact Option.noConfusion h

lemma tryMatchAt_none_head {c : Char} (hc : c ≠ '$') (rest : List Char) :
    tryMatchAt (c :: rest) = none := by
  unfold tryMatchAt
  split
  · next heq => exact absurd (List.head_eq_of_cons_eq heq) hc
  · rfl

/-! The scan loop. -/

lemma scanGo_no_dollar : ∀ (fuel : Nat) (cs : List Char) (i : Nat),
    (∀ c ∈ cs, c ≠ '$') → scanGo fuel cs i = [] := by
  intro fuel
  induction fuel with
  | zero => intro cs i _; rfl
  | succ fuel ih =>
    intro cs i h
    cases cs with
    | nil => rfl
    | cons c rest =>
      rw [scanGo, tryMatchAt_none_head (h c (List.mem_cons_self _ _)) rest]
      exact ih rest _ (fun x hx => h x (List.mem_cons_of_mem _ hx))

lemma scanGo_no_double : ∀ (fuel : Nat) (cs : List Char) (i : Nat),
    ∀ p ∈ scanGo fuel cs i, p.fullMatch ≠ "$$" := by
  intro fuel
  induction fuel with
  | zero => intro cs i p hp; exact absurd hp (List.not_mem_nil _)
  | succ fuel ih =>
    intro cs i p hp
    cases cs with
    | nil => exact absurd hp (List.not_mem_nil _)
    | cons c rest =>
      rw [scanGo] at hp
      cases hm : tryMatchAt (c :: rest) with
      | none =>
        rw [hm] at hp
        exact ih rest _ p hp
      | some m =>
        rw [hm] at hp
        rcases List.mem_cons.mp hp with rfl | hp'
        · intro e
          have hmm : m.matched = ['$', '$'] := by
            have h2 := congrArg String.data e
            exact h2
          exact tryMatchAt_not_double_dollar hm hmm
        · exact ih m.rest _ p hp'

lemma scanGo_roundtrip : ∀ (fuel : Nat) (cs : List Char) (i : Nat),
    ∀ p ∈ scanGo fuel cs i,
      i ≤ p.offset ∧
      List.take p.length (List.drop (p.offset - i) cs) = p.fullMatch.data := by
  intro fuel
  induction fuel with
  | zero => intro cs i p hp; exact absurd hp (List.not_mem_nil _)
  | succ fuel ih =>
    intro cs i p hp
    cases cs with
    | nil => exact absurd hp (List.not_mem_nil _)
    | cons c rest =>
      rw [scanGo] at hp
      cases hm : tryMatchAt (c :: rest) with
      | none =>
        rw [hm] at hp
        obtain ⟨hle, heq⟩ := ih rest (i + 1) p hp
        refine ⟨by omega, ?_⟩
        have harith : p.offset - i = (p.offset - (i + 1)) + 1 := by omega
        rw [harith, List.drop_succ_cons]
        exact heq
      | some m =>
        rw [hm] at hp
        have hsplit := tryMatchAt_split hm
        rcases List.mem_cons.mp hp with rfl | hp'
        · refine ⟨Nat.le_refl _, ?_⟩
          show List.take m.matched.length
            (List.drop (i - i) (c :: rest)) = (String.mk m.matched).data
          rw [Nat.sub_self, List.drop_zero, hsplit, List.take_left]
        · obtain ⟨hle, heq⟩ := ih m.rest (i + m.matched.length) p hp'
          refine ⟨by omega, ?_⟩
          have harith : p.offset - i =
              m.matched.length + (p.offset - (i + m.matched.length)) := by omega
          rw [harith, hsplit, List.drop_append]
          exact heq

/-- C6: on inputs without `$` (the empty input included) the PV parser
returns the empty list, and no returned `ParsedPv` ever has `$$` as its
full match (the `match[0] === '$$'` guard in the source is dead code: no
alternative of the regex can match `$$`). -/
theorem parsePvString_no_dollar_no_double_match :
    (∀ s : String, '$' ∉ s.data → parsePvString s = [])
    ∧ ∀ (s : String) (p : ParsedPv), p ∈ parsePvString s → p.fullMatch ≠ "$$" := by
  constructor
  · intro s h
    exact scanGo_no_dollar _ _ _ (fun c hc e => h (e ▸ hc))
  · intro s p hp
    exact scanGo_no_double _ _ _ p hp

/-- The single PV the parser extracts from `"$$x"`. -/
def pvSampleX : ParsedPv :=
  ⟨"$x", "x", none, none, 1, 2, true, PvCategory.other⟩

/-- Witness for C6 at concrete inputs: a dollar-free string parses to `[]`,
and the match found in `"$$x"` is not `$$`. -/
theorem parsePvString_no_dollar_no_double_match_witness :
    parsePvString "hello world" = [] ∧ pvSampleX.fullMatch ≠ "$$" :=
  ⟨parsePvString_no_dollar_no_double_match.1 "hello world" (by decide),
   parsePvString_no_dollar_no_double_match.2 "$$x" pvSampleX (by decide)⟩

/-- C7: round trip — every `ParsedPv` reported for input `s` satisfies
`s.substring(offset, offset + length) === fullMatch` (character-level
`take`/`drop` renders JS `substring`). -/
theorem parsePvString_roundtrip (s : String) (p : ParsedPv)
    (hp : p ∈ parsePvString s) :
    List.take p.length (List.drop p.offset s.data) = p.fullMatch.data := by
  have h := (scanGo_roundtrip s.length s.data 0 p hp).2
  rw [Nat.sub_zero] at h
  exact h

/-- The single PV the parser extracts from `"$var(x)"`. -/
def pvSampleVar : ParsedPv :=
  ⟨"$var(x)", "var", some "x", none, 0, 7, false, PvCategory.script_var⟩

/-- Witness for C7 on the concrete input `"$var(x)"`. -/
theorem parsePvString_roundtrip_witness :
    List.take pvSampleVar.length (List.drop pvSampleVar.offset ("$var(x)" : String).data) =
      pvSampleVar.fullMatch.data :=
  parsePvString_roundtrip "$var(x)" pvSampleVar (by decide)

end KamailioLS
